import Mathlib

/-!
Verification development for the `simple_search` repository: the indexing,
ranking and query-parsing pipeline of `simple_search/base_models.py` (the
feature-complete lineage the spec designates as authoritative) together with
the result-resolution tail of `simple_search/models.py`.

Modelling conventions:
* The nltk-backed `canonicalize` is an external, pluggable collaborator
  (spec section 1 and 4.1); every pipeline function takes it as an explicit
  parameter `canon : String → List String`.  Concrete instantiations use the
  spec-sanctioned default, a plain whitespace split.
* The datastore is modelled as an explicit state: the list of live
  `AbstractIndexRecord` rows plus the `GlobalOccuranceCount` table as a
  partial map from term to count.  Counter values are `Int`, matching Python
  integer arithmetic (`PositiveIntegerField` is only a storage constraint).
* Python strings are Lean `String`s; character-level operations are defined
  on `List Char` via `String.data`.  `lower()` is modelled with
  `Char.toLower` (they agree on ASCII, which covers every concrete input
  used here).
-/

namespace SimpleSearch

/-- Python whitespace, as stripped by `str.strip()` with no arguments and
matched by the regex class `\s`. -/
def isPySpace (c : Char) : Bool :=
  c == ' ' || c == '\t' || c == '\n' || c == '\r' || c == '\x0b' || c == '\x0c'

/-- Truth value of Python `not term.strip()`: the string is empty or
whitespace-only. -/
def wsOnly (s : String) : Bool := s.data.all isPySpace

/-- Character-level `u" ".join(tokens)`. -/
def joinD : List (List Char) → List Char
  | [] => []
  | [t] => t
  | t :: ts => t ++ ' ' :: joinD ts

/-- Python `u" ".join(tokens)` on strings. -/
def joinTokens (l : List String) : String := ⟨joinD (l.map String.data)⟩

/-- Left-to-right non-overlapping occurrence count, fuelled by the input
length so that it is structurally recursive (a non-empty pattern consumes at
least one character per step, so fuel equal to the input length is always
enough). -/
def countOccAux (pat : List Char) : Nat → List Char → Nat
  | 0, _ => 0
  | _ + 1, [] => 0
  | fuel + 1, c :: r =>
    if pat.isPrefixOf (c :: r) then 1 + countOccAux pat fuel ((c :: r).drop pat.length)
    else countOccAux pat fuel r

/-- Python `s.count(sub)`: the number of non-overlapping occurrences of `pat`
in `l`, scanning left to right.  An empty pattern yields `len(s) + 1`, as in
Python. -/
def countOcc (pat : List Char) (l : List Char) : Nat :=
  if pat.isEmpty then l.length + 1 else countOccAux pat l.length l

/-- Python `text.count(term)` on strings. -/
def substrCount (text pat : String) : Nat := countOcc pat.data text.data

/-- Accumulating whitespace split (helper for `splitWords`). -/
def splitWordsAux : List Char → List Char → List (List Char)
  | [], cur => if cur.isEmpty then [] else [cur]
  | c :: r, cur =>
    if c == ' ' then (if cur.isEmpty then splitWordsAux r [] else cur :: splitWordsAux r [])
    else splitWordsAux r (cur ++ [c])

/-- Plain whitespace-splitting canonicalizer, the spec's acceptable default
for the pluggable text canonicalization collaborator.  Used to instantiate
the `canon` parameter on concrete inputs. -/
def splitWords (s : String) : List String :=
  (splitWordsAux s.data []).map (fun l => ⟨l⟩)

/-- Window lengths tried by the source at start index `i` over `n` stems:
`for j in xrange(1, 5)` with `break` as soon as `stems[i:i+j]` is shorter
than `j`.  Because `i + j ≤ n` is downward closed in `j`, the `break` is a
`takeWhile` over `[1, 2, 3, 4]`. -/
def windowLengths (n i : Nat) : List Nat :=
  (List.range' 1 4).takeWhile (fun j => i + j ≤ n)

/-- AbstractIndex._generate_terms (base_models.py lines 134-161): canonicalize
the text into stems, then for every start index emit the joins of the windows
`stems[i:i+j]`, `j = 1..4`, skipping a window whose join is empty or
whitespace-only (`if not term.strip(): continue`). -/
def generateTerms (canon : String → List String) (text : String) : List String :=
  let stems := canon text
  (List.range stems.length).flatMap (fun i =>
    (windowLengths stems.length i).filterMap (fun j =>
      let term := joinTokens ((stems.drop i).take j)
      if wsOnly term then none else some term))

/-- Modelled from the spec (section 4.2): "for every start index `i` and every
window length `j` in `[1, 4]`, take tokens `[i, i+j)`; if fewer than `j`
tokens remain, stop growing the window at this `i` (do not wrap or pad)";
windows are joined with a single space and a joined term that normalizes to
empty/whitespace-only is dropped.  This definition follows the spec's words
and exists only to be compared with `generateTerms`. -/
def specWindowTerms (canon : String → List String) (text : String) : List String :=
  let toks := canon text
  (List.range toks.length).flatMap (fun i =>
    ((List.range' 1 4).filter (fun j => i + j ≤ toks.length)).filterMap (fun j =>
      let term := joinTokens ((toks.drop i).take j)
      if wsOnly term then none else some term))

/-- One live row of the index table, AbstractIndexRecord (base_models.py
lines 39-56): `owner` stands for the opaque object identity reached through
`OBJECT_ID_FIELD`, `field` is the indexed field name, `iexact` the term and
`occurances` its stored occurrence count. -/
structure IndexRecord where
  owner : Nat
  field : String
  iexact : String
  occurances : Int
deriving DecidableEq

/-- Store state: the live index rows plus the GlobalOccuranceCount table
(base_models.py lines 17-19) as a partial map from term to count. -/
structure SState where
  records : List IndexRecord
  counts : String → Option Int

/-- Write one GlobalOccuranceCount row. -/
def gocSet (g : String → Option Int) (t : String) (v : Int) : String → Option Int :=
  fun u => if u = t then some v else g u

/-- Delete one GlobalOccuranceCount row. -/
def gocDel (g : String → Option Int) (t : String) : String → Option Int :=
  fun u => if u = t then none else g u

/-- AbstractIndexRecord.delete (base_models.py lines 58-84).  Inside one
transaction the counter row of the record's term is fetched; when its count
is at most the record's occurances the counter row is deleted, otherwise it
is decremented, and then the record row itself is deleted.  When the counter
row is missing, `GlobalOccuranceCount.DoesNotExist` escapes the transaction
before `super().delete()` runs and is caught and only logged (lines 80-84),
so the whole state is left unchanged: in particular the record row
survives. -/
def recordDelete (s : SState) (r : IndexRecord) : SState :=
  match s.counts r.iexact with
  | none => s
  | some c =>
    { records := s.records.erase r
      counts :=
        if c ≤ r.occurances then gocDel s.counts r.iexact
        else gocSet s.counts r.iexact (c - r.occurances) }

/-- AbstractIndex.unindex (base_models.py lines 124-132): fetch the records
belonging to the object (`_get_records`, per its contract the rows whose
owner identity matches) and delete each one in turn. -/
def unindex (s : SState) (o : Nat) : SState :=
  (s.records.filter (fun r => r.owner == o)).foldl recordDelete s

/-- AbstractIndex._index_term (base_models.py lines 163-183):
`text = ' '.join(self.canonicalize(text))`, `term_count = text.count(term_)`,
then `get_or_create_record(obj, field, term_, term_count)` (a get_or_create
keyed on the record's identifying triple per its docstring contract: it
creates the row only when absent) and finally
`GlobalOccuranceCount.objects.get_or_create(pk=term_)` followed by
`counter.count += term_count; counter.save()`, the fresh counter starting at
the field default 0. -/
def indexTerm (canon : String → List String) (o : Nat) (f : String)
    (text term : String) (s : SState) : SState :=
  let termCount : Int := substrCount (joinTokens (canon text)) term
  let records :=
    if s.records.any (fun r => r.owner == o && r.field == f && r.iexact == term)
    then s.records
    else s.records ++ [⟨o, f, term, termCount⟩]
  { records := records
    counts := gocSet s.counts term ((s.counts term).getD 0 + termCount) }

/-- AbstractIndex._do_index (base_models.py lines 185-199) with
`get_field_data` resolved: `fieldsData` lists, for each field name of
`fields_to_index`, the texts extracted for that field; every generated term
of every text is indexed in order (the deferred and the synchronous path run
the same `_index_term` calls). -/
def doIndex (canon : String → List String) (o : Nat)
    (fieldsData : List (String × List String)) (s : SState) : SState :=
  fieldsData.foldl (fun s fd =>
    fd.2.foldl (fun s text =>
      (generateTerms canon text).foldl
        (fun s term => indexTerm canon o fd.1 text term s) s) s) s

/-- AbstractIndex.reindex (base_models.py lines 119-122): unindex the object,
then run the indexing work. -/
def reindex (canon : String → List String) (o : Nat)
    (fieldsData : List (String × List String)) (s : SState) : SState :=
  doIndex canon o fieldsData (unindex s o)

/-- Empty store: no rows, no counters. -/
def emptyState : SState := { records := [], counts := fun _ => none }

/-- Sum of the occurance counts of the live rows carrying a term. -/
def sumOcc (rs : List IndexRecord) (t : String) : Int :=
  ((rs.filter (fun r => r.iexact == t)).map (fun r => r.occurances)).sum

/-- Store consistency, the spec's data-model invariant (section 3): every
live row's occurance count is positive, and a GlobalOccuranceCount row exists
exactly for the terms that have live rows, holding the sum of their
occurance counts. -/
def Consistent (s : SState) : Prop :=
  (∀ r ∈ s.records, 1 ≤ r.occurances) ∧
  (∀ t, s.counts t = if sumOcc s.records t = 0 then none else some (sumOcc s.records t))

/-- Extensional equality of stores: the same live rows and the same
GlobalOccuranceCount values. -/
def SEq (s₁ s₂ : SState) : Prop :=
  s₁.records = s₂.records ∧ ∀ t, s₁.counts t = s₂.counts t

/-- Flattened (field, text, term) iteration order of `_do_index`. -/
def indexTriples (canon : String → List String)
    (fieldsData : List (String × List String)) : List (String × String × String) :=
  fieldsData.flatMap (fun fd => fd.2.flatMap (fun text =>
    (generateTerms canon text).map (fun term => (fd.1, text, term))))

/-- Rows a full `_do_index` pass creates for an object, in creation order. -/
def freshRecords (canon : String → List String) (o : Nat)
    (fieldsData : List (String × List String)) : List IndexRecord :=
  (indexTriples canon fieldsData).map (fun tr =>
    ⟨o, tr.1, tr.2.2, (substrCount (joinTokens (canon tr.2.1)) tr.2.2 : Int)⟩)

/-- Duplicate-freedom of an indexing request: the field names are pairwise
distinct and, for each field, the terms generated over all of its texts are
pairwise distinct. -/
def NodupTerms (canon : String → List String)
    (fieldsData : List (String × List String)) : Prop :=
  (fieldsData.map Prod.fst).Nodup ∧
  ∀ fd ∈ fieldsData, (fd.2.flatMap (generateTerms canon)).Nodup

/-- Scoring formula of AbstractIndex._weight_results (base_models.py
line 217): `sum(matching_terms) / (n + ((n-1) * 0.5))` with
`n = float(len(matching_terms))`.  Python float arithmetic is modelled with
exact rationals. -/
def score (matching_terms : List Int) : ℚ :=
  (matching_terms.sum : ℚ) /
    ((matching_terms.length : ℚ) + (((matching_terms.length : ℚ) - 1) * (1 / 2)))

/-- AbstractIndex._weight_results (base_models.py lines 201-221): map every
(record, matching term counts) pair to `(score, record)` and sort ascending
by score with Python's stable `final_weights.sort(key=lambda x: x[0])`,
modelled by the stable `List.mergeSort` comparing first components.  The
`obj_weights` dict is modelled as an association list in iteration order. -/
def weight_results {α : Type} (obj_weights : List (α × List Int)) : List (ℚ × α) :=
  (obj_weights.map (fun p => (score p.2, p.1))).mergeSort
    (fun a b => decide (a.1 ≤ b.1))

/-- Python index resolution for one slice endpoint of `l[a:b]`: a negative
endpoint counts from the end; the result is clamped into `[0, len]`. -/
def pyIndex (len : Nat) (i : Int) : Nat :=
  if i < 0 then (max (i + len) 0).toNat else min i.toNat len

/-- Python slice `l[a:b]`. -/
def pySlice {α : Type} (l : List α) (a b : Int) : List α :=
  (l.take (pyIndex l.length b)).drop (pyIndex l.length a)

/-- AbstractIndex._apply_paging_to_results (base_models.py lines 252-258):
`final_weights = final_weights[:total_pages*per_page]`, then
`offset = (current_page - 1) * per_page` and
`final_weights[offset:offset + per_page]`. -/
def apply_paging_to_results {α : Type} (final_weights : List α)
    (per_page current_page total_pages : Int) : List α :=
  let fw := pySlice final_weights 0 (total_pages * per_page)
  let offset := (current_page - 1) * per_page
  pySlice fw offset (offset + per_page)

/-- Characters replaced by spaces in AbstractIndex.normalize (base_models.py
line 345, `whitespace_characters`): pipe, slash, hyphen, en dash, em dash,
tilde, comma, period, semicolon, colon, exclamation mark, question mark. -/
def punctChars : List Char :=
  ['|', '/', '-', '–', '—', '~', ',', '.', ';', ':', '!', '?']

/-- AbstractIndex.normalize (base_models.py lines 343-349): replace each
listed punctuation character by a space, then lower-case the result. -/
def normalize (s : String) : String :=
  ⟨s.data.map (fun c => Char.toLower (if punctChars.contains c then ' ' else c))⟩

/-- Greedy match of `(?:\\.|[^"])*"` right after an opening double quote:
returns the consumed characters (closing quote included) and the rest, or
`none` when no closing quote is reachable.  Escape pairs `\\.` are consumed
eagerly; this agrees with the source regex on every input free of backslash
escapes (the regex engine can additionally re-read a trailing escaped quote
as a closing quote by backtracking, which this model does not). -/
def quotedEnd : List Char → Option (List Char × List Char)
  | [] => none
  | '"' :: r => some (['"'], r)
  | '\\' :: c :: r => (quotedEnd r).map (fun p => ('\\' :: c :: p.1, p.2))
  | c :: r => (quotedEnd r).map (fun p => (c :: p.1, p.2))

/-- Whether a character can extend a token outside quotes: the regex class
`[^\s,"]`. -/
def isTokenChar (c : Char) : Bool := !(isPySpace c || c == ',' || c == '"')

/-- Greedy match of one token `(?:[^\s,"]|"(?:\\.|[^"])*")+` at the head of
the input (fuelled by the input length): returns the matched characters and
the rest; an empty first component means the regex has no match here.  The
two alternatives have disjoint first characters, so greedy one-pass scanning
agrees with the regex. -/
def scanToken : Nat → List Char → List Char × List Char
  | 0, l => ([], l)
  | _ + 1, [] => ([], [])
  | fuel + 1, c :: r =>
    if c == '"' then
      match quotedEnd r with
      | some p =>
        let q := scanToken fuel p.2
        ('"' :: (p.1 ++ q.1), q.2)
      | none => ([], c :: r)
    else if isTokenChar c then
      let q := scanToken fuel r
      (c :: q.1, q.2)
    else ([], c :: r)

/-- Scanning loop of `re.findall`: try a token match at the current position,
consume it when non-empty, otherwise advance one character. -/
def findTokensAux : Nat → List Char → List (List Char)
  | 0, _ => []
  | _ + 1, [] => []
  | fuel + 1, c :: r =>
    let p := scanToken (r.length + 1) (c :: r)
    if p.1.isEmpty then findTokensAux fuel r
    else p.1 :: findTokensAux fuel p.2

/-- Tokens returned by `re.findall(split_by_space, search_string)`
(base_models.py line 378 with the pattern of line 363). -/
def findTokens (s : String) : List String :=
  (findTokensAux s.data.length s.data).map (fun l => ⟨l⟩)

/-- Field-label extraction per token (base_models.py lines 364 and 379):
`re.findall(r'^(?P<field>[^:"]+):[^ ]+', token)` keeps the group of the
anchored match when there is one, i.e. a non-empty maximal run of characters
other than ':' and '"', followed by ':' and then at least one character other
than a space. -/
def fieldOf (token : String) : Option String :=
  let pre := token.data.takeWhile (fun c => !(c == ':' || c == '"'))
  match token.data.drop pre.length with
  | ':' :: c :: _ => if pre.isEmpty || c == ' ' then none else some ⟨pre⟩
  | _ => none

/-- Left-to-right removal pass, fuelled by the input length so that it is
structurally recursive (fuel equal to the input length is always enough for
a non-empty pattern). -/
def removeAllAux (pat : List Char) : Nat → List Char → List Char
  | 0, l => l
  | _ + 1, [] => []
  | fuel + 1, c :: r =>
    if pat.isPrefixOf (c :: r) then removeAllAux pat fuel ((c :: r).drop pat.length)
    else c :: removeAllAux pat fuel r

/-- Single left-to-right pass of Python `re.sub(pat, '', s)` for a literal
pattern: every non-overlapping occurrence of `pat` is removed.  (An empty
pattern removes nothing; the callers below always pass a pattern ending in
':'.) -/
def removeAll (pat : List Char) (l : List Char) : List Char :=
  if pat.isEmpty then l else removeAllAux pat l.length l

/-- get_field_content (base_models.py lines 366-373): when a field label was
recognized, every occurrence of `field + ":"` in the token is removed
(`re.sub(field + ":", '', token)`, the label taken as a literal pattern —
the labels exercised here contain no regex metacharacters), then one pair of
surrounding double quotes is stripped (`token[1:-1]`). -/
def get_field_content (token : String) (field : Option String) :
    Option String × String :=
  let t₁ : List Char :=
    match field with
    | some f => removeAll (f.data ++ [':']) token.data
    | none => token.data
  let t₂ : List Char :=
    if t₁.head? == some '"' && t₁.getLast? == some '"' then (t₁.dropLast).drop 1
    else t₁
  (field, ⟨t₂⟩)

/-- Accumulate one (field, token) pair, as
`raw_parsed_terms.setdefault(field, []).append(token)` does, into an
insertion-ordered association list. -/
def addRaw (acc : List (Option String × List String)) (kv : Option String × String) :
    List (Option String × List String) :=
  if acc.any (fun p => p.1 == kv.1) then
    acc.map (fun p => if p.1 == kv.1 then (p.1, p.2 ++ [kv.2]) else p)
  else acc ++ [(kv.1, [kv.2])]

/-- Second phase of parse_terms for one label's tokens (base_models.py
lines 387-402): tokens containing whitespace become individual
canonicalized-and-rejoined phrase terms, in order; the remaining tokens are
pooled, joined with spaces, canonicalized as one batch and appended. -/
def processGroup (canon : String → List String) (toks : List String) : List String :=
  (toks.filter (fun t => t.data.any isPySpace)).map (fun t => joinTokens (canon t))
    ++ canon (joinTokens (toks.filter (fun t => !t.data.any isPySpace)))

/-- AbstractIndex.parse_terms (base_models.py lines 351-403), with
`canonicalize` as the pluggable parameter: normalize the whole string, split
it into tokens, extract a field label per token, strip labels and quotes,
group the stripped tokens by label in insertion order and canonicalize each
group.  The result maps each scope label (`none` for unscoped) to its parsed
terms. -/
def parse_terms (canon : String → List String) (search_string : String) :
    List (Option String × List String) :=
  let s := normalize search_string
  let tokens := findTokens s
  let fields := tokens.map fieldOf
  let fieldContents := List.zipWith (fun t f => get_field_content t f) tokens fields
  let raw := fieldContents.foldl addRaw []
  raw.map (fun p => (p.1, processGroup canon p.2))

/-- Terms stored under one scope label of a parse result. -/
def lookupLabel (l : List (Option String × List String)) (k : Option String) :
    Option (List String) :=
  (l.find? (fun p => p.1 == k)).map (fun p => p.2)

/-- Result-resolution tail of Index.search (models.py lines 337-343):
`results = [r for r in queryset if r.pk in order.keys()]`, then
`sorted_results = [None] * len(results)` and
`sorted_results[order[result.pk]] = result` for each result.  An assignment
whose position is outside the slot range is Python's IndexError, modelled as
`none`. -/
def resolveStep {α : Type} (pkOf : α → Nat) (order : List (Nat × Nat))
    (acc : Option (List (Option α))) (r : α) : Option (List (Option α)) :=
  match acc, order.lookup (pkOf r) with
  | none, _ => none
  | some l, some p => if p < l.length then some (l.set p (some r)) else none
  | some l, none => some l

/-- Full resolution loop: see `resolveStep` for one placement. -/
def resolveResults {α : Type} (pkOf : α → Nat) (queryset : List α)
    (order : List (Nat × Nat)) : Option (List (Option α)) :=
  let results := queryset.filter (fun r => (order.lookup (pkOf r)).isSome)
  results.foldl (resolveStep pkOf order) (some (List.replicate results.length none))

/-- Two-record demonstration state for the missing-counter behaviour: the
record for term "a" has no GlobalOccuranceCount row, the record for term "b"
has one. -/
def missingCounterState : SState :=
  { records := [⟨0, "f", "a", 1⟩, ⟨0, "f", "b", 1⟩]
    counts := fun t => if t = "b" then some 1 else none }

theorem windowLengths_eq_filter (n i : Nat) :
    windowLengths n i = (List.range' 1 4).filter (fun j => i + j ≤ n) := by
  unfold windowLengths
  have h4 : List.range' 1 4 = [1, 2, 3, 4] := rfl
  rw [h4]
  by_cases h1 : i + 1 ≤ n <;> by_cases h2 : i + 2 ≤ n <;>
    by_cases h3 : i + 3 ≤ n <;> by_cases h4' : i + 4 ≤ n <;>
    simp [List.takeWhile, List.filter, h1, h2, h3, h4'] <;> omega

/-- C4: for every input text, `_generate_terms` returns exactly the contiguous
token windows of the canonicalized text of lengths 1 to 4 (windows running past
the end are not padded or wrapped, and a window whose join is whitespace-only
is dropped), each window occurring exactly once in enumeration order; in
particular every returned term is the join of at most 4 tokens. -/
theorem generateTerms_window_char (canon : String → List String) (text : String) :
    ∀ t ∈ generateTerms canon text, ∃ i j, 1 ≤ j ∧ j ≤ 4 ∧
      i + j ≤ (canon text).length ∧ wsOnly t = false ∧
      t = joinTokens (((canon text).drop i).take j) := by
  intro t ht
  unfold generateTerms at ht
  simp only [windowLengths_eq_filter, List.mem_flatMap, List.mem_filterMap,
    List.mem_filter, List.mem_range] at ht
  obtain ⟨i, hi, j, ⟨hj, hle⟩, hterm⟩ := ht
  have hj' : 1 ≤ j ∧ j ≤ 4 := by
    have hj4 : j ∈ [1, 2, 3, 4] := hj
    simp [List.mem_cons] at hj4
    rcases hj4 with h | h | h | h <;> omega
  refine ⟨i, j, hj'.1, hj'.2, by simpa using hle, ?_, ?_⟩
  · by_cases hws : wsOnly (joinTokens (((canon text).drop i).take j)) = true
    · simp [hws] at hterm
    · simp [hws] at hterm
      rw [← hterm]
      simpa [Bool.not_eq_true] using hws
  · by_cases hws : wsOnly (joinTokens (((canon text).drop i).take j)) = true
    · simp [hws] at hterm
    · simp [hws] at hterm
      exact hterm.symm

/-- C4: for every input text, `_generate_terms` returns exactly the contiguous
token windows of the canonicalized text of lengths 1 to 4 (windows running past
the end are not padded or wrapped, and a window whose join is whitespace-only
is dropped), each window occurring exactly once in enumeration order; in
particular every returned term is the join of a window of at most 4 tokens. -/
theorem generateTerms_eq_specWindows (canon : String → List String) (text : String) :
    generateTerms canon text = specWindowTerms canon text ∧
    ∀ t ∈ generateTerms canon text, ∃ i j, 1 ≤ j ∧ j ≤ 4 ∧
      i + j ≤ (canon text).length ∧ wsOnly t = false ∧
      t = joinTokens (((canon text).drop i).take j) := by
  constructor
  · unfold generateTerms specWindowTerms
    simp only [windowLengths_eq_filter]
  · exact generateTerms_window_char canon text

theorem pyIndex_nonneg (len : Nat) (i : Int) (h : 0 ≤ i) :
    pyIndex len i = min i.toNat len := by
  unfold pyIndex
  rw [if_neg (by omega)]

theorem take_clamp {α : Type} (l : List α) (n : Nat) :
    l.take (min n l.length) = l.take n := by
  rcases Nat.le_total n l.length with h | h
  · rw [Nat.min_eq_left h]
  · rw [Nat.min_eq_right h, List.take_length, List.take_of_length_le h]

theorem drop_clamp {α : Type} (l : List α) (n len : Nat) (hlen : l.length ≤ len) :
    l.drop (min n len) = l.drop n := by
  rcases Nat.le_total n len with h | h
  · rw [Nat.min_eq_left h]
  · rw [Nat.min_eq_right h, List.drop_eq_nil_of_le hlen,
      List.drop_eq_nil_of_le (Nat.le_trans hlen h)]

theorem pySlice_nonneg {α : Type} (l : List α) (a b : Int) (ha : 0 ≤ a) (hb : 0 ≤ b) :
    pySlice l a b = (l.take b.toNat).drop a.toNat := by
  unfold pySlice
  rw [pyIndex_nonneg _ _ ha, pyIndex_nonneg _ _ hb, take_clamp,
    drop_clamp _ _ _ (by rw [List.length_take]; exact Nat.min_le_right _ _)]

/-- C5: paging first truncates the sorted list to `total_pages * per_page`
entries, then returns the slice of length `per_page` starting at
`(current_page - 1) * per_page`; a page beyond the available results is the
empty sequence, not an error; with 25 scored candidates, `per_page = 10` and
`current_page = 2` return the candidates ranked 11 to 20, and
`current_page = 3` with `total_pages = 2` returns the empty sequence. -/
theorem apply_paging_spec {α : Type} (fw : List α) (per cur total : Int)
    (hper : 0 ≤ per) (hcur : 1 ≤ cur) (htotal : 0 ≤ total) :
    apply_paging_to_results fw per cur total
      = ((fw.take (total * per).toNat).drop ((cur - 1) * per).toNat).take per.toNat ∧
    (min (total * per).toNat fw.length ≤ ((cur - 1) * per).toNat →
      apply_paging_to_results fw per cur total = []) ∧
    apply_paging_to_results (List.range 25) 10 2 10
      = [10, 11, 12, 13, 14, 15, 16, 17, 18, 19] ∧
    apply_paging_to_results (List.range 25) 10 3 2 = [] := by
  have h0 : (0:Int) ≤ total * per := Int.mul_nonneg htotal hper
  have hoff : (0:Int) ≤ (cur - 1) * per := Int.mul_nonneg (by omega) hper
  have hmain : apply_paging_to_results fw per cur total
      = ((fw.take (total * per).toNat).drop ((cur - 1) * per).toNat).take per.toNat := by
    unfold apply_paging_to_results
    rw [pySlice_nonneg _ _ _ (by omega) h0, pySlice_nonneg _ _ _ hoff (by omega),
      Int.toNat_zero, List.drop_zero, Int.toNat_add hoff hper, ← List.take_drop]
  refine ⟨hmain, ?_, by decide, by decide⟩
  intro hbeyond
  rw [hmain, List.drop_eq_nil_of_le, List.take_nil]
  simpa using hbeyond

/-- C3: ranking assigns each candidate with matching counts `c_1..c_n` the
score `sum(c_i) / (n + (n-1) * 0.5)` and orders candidates ascending by that
score; a candidate matching counts [1, 1] (score 0.8) ranks before a
candidate matching only [1] (score 1.0). -/
theorem weight_results_scores {α : Type} (obj_weights : List (α × List Int)) :
    (weight_results obj_weights).Perm
      (obj_weights.map (fun p => (score p.2, p.1))) ∧
    (weight_results obj_weights).Pairwise (fun a b => a.1 ≤ b.1) ∧
    score [1, 1] = 4 / 5 ∧ score [1] = 1 ∧
    weight_results [((0 : Nat), [1, 1]), (1, [1])]
      = [(4 / 5, (0 : Nat)), (1, 1)] := by
  refine ⟨List.mergeSort_perm _ _, ?_, by norm_num [score], by norm_num [score], ?_⟩
  · have h := @List.sorted_mergeSort (ℚ × α)
      (fun (a b : ℚ × α) => decide (a.1 ≤ b.1))
      (fun a b c hab hbc => by
        simp only [decide_eq_true_eq] at *; exact le_trans hab hbc)
      (fun a b => by
        simp only [Bool.or_eq_true, decide_eq_true_eq]; exact le_total a.1 b.1)
      (obj_weights.map (fun p => (score p.2, p.1)))
    unfold weight_results
    exact h.imp (by simp)
  · unfold weight_results
    have hmap : ([((0 : Nat), [(1 : Int), 1]), (1, [1])].map (fun p => (score p.2, p.1)))
        = [(score [1, 1], 0), (score [1], 1)] := rfl
    rw [hmap, List.mergeSort_of_sorted (by
      constructor
      · intro b hb
        simp only [List.mem_singleton] at hb
        subst hb
        norm_num [score]
      · simp)]
    norm_num [score]

/-- C8: ranking orders candidates by ascending score only, with a stable
sort: the candidates carrying any given score appear in the ranked output in
exactly the order in which they occur in the input match groups. -/
theorem weight_results_stable {α : Type} (obj_weights : List (α × List Int)) (q : ℚ) :
    (weight_results obj_weights).Pairwise (fun a b => a.1 ≤ b.1) ∧
    (weight_results obj_weights).filter (fun x => x.1 == q)
      = (obj_weights.map (fun p => (score p.2, p.1))).filter (fun x => x.1 == q) := by
  have trans : ∀ (a b c : ℚ × α), (fun a b : ℚ × α => decide (a.1 ≤ b.1)) a b →
      (fun a b : ℚ × α => decide (a.1 ≤ b.1)) b c →
      (fun a b : ℚ × α => decide (a.1 ≤ b.1)) a c := by
    intro a b c hab hbc
    simp only [decide_eq_true_eq] at *
    exact le_trans hab hbc
  have total : ∀ (a b : ℚ × α), (fun a b : ℚ × α => decide (a.1 ≤ b.1)) a b
      || (fun a b : ℚ × α => decide (a.1 ≤ b.1)) b a := by
    intro a b
    simp only [Bool.or_eq_true, decide_eq_true_eq]
    exact le_total a.1 b.1
  constructor
  · have h := @List.sorted_mergeSort (ℚ × α) (fun (a b : ℚ × α) => decide (a.1 ≤ b.1))
      trans total (obj_weights.map (fun p => (score p.2, p.1)))
    unfold weight_results
    exact h.imp (by simp)
  · set l := obj_weights.map (fun p => (score p.2, p.1)) with hl
    set c := l.filter (fun x => x.1 == q) with hc
    have hcpair : c.Pairwise (fun a b : ℚ × α => decide (a.1 ≤ b.1)) := by
      apply List.pairwise_of_forall_mem_list
      intro a ha b hb
      have ha' := (List.mem_filter.mp ha).2
      have hb' := (List.mem_filter.mp hb).2
      simp only [beq_iff_eq] at ha' hb'
      simp [ha', hb']
    have hsub : List.Sublist c (List.mergeSort l (fun a b => decide (a.1 ≤ b.1))) :=
      List.sublist_mergeSort trans total hcpair (List.filter_sublist l)
    have hsub' : List.Sublist c ((List.mergeSort l (fun a b => decide (a.1 ≤ b.1))).filter
        (fun x => x.1 == q)) := by
      have := hsub.filter (fun x => x.1 == q)
      rwa [List.filter_eq_self.mpr (fun a ha => (List.mem_filter.mp ha).2)] at this
    have hperm : ((List.mergeSort l (fun a b => decide (a.1 ≤ b.1))).filter
        (fun x => x.1 == q)).Perm c :=
      (List.mergeSort_perm l _).filter _
    exact (hsub'.eq_of_length hperm.length_eq.symm).symm

theorem toNat_char_ofNat (n : Nat) (h : n.isValidChar) : (Char.ofNat n).toNat = n := by
  unfold Char.ofNat
  rw [dif_pos h]
  rfl

theorem toLower_ne_colon (c : Char) (hc : c ≠ ':') : Char.toLower c ≠ ':' := by
  unfold Char.toLower
  simp only []
  split
  · intro h
    have hval := congrArg Char.toNat h
    rename_i hrange
    rw [toNat_char_ofNat _ (Or.inl (by omega))] at hval
    have hcolon : Char.toNat ':' = 58 := rfl
    omega
  · exact hc

theorem normalize_no_colon (s : String) : ':' ∉ (normalize s).data := by
  unfold normalize
  intro h
  simp only [List.mem_map] at h
  obtain ⟨c, _, hc⟩ := h
  by_cases hp : punctChars.contains c
  · rw [if_pos hp] at hc
    exact absurd hc.symm (by decide)
  · rw [if_neg hp] at hc
    have hcc : c ≠ ':' := by
      intro hcol
      subst hcol
      exact hp (by decide)
    exact toLower_ne_colon c hcc hc

theorem quotedEnd_append : ∀ (l : List Char) (p : List Char × List Char),
    quotedEnd l = some p → p.1 ++ p.2 = l := by
  intro l
  induction l using quotedEnd.induct with
  | case1 => intro p h; simp [quotedEnd] at h
  | case2 r => intro p h; simp [quotedEnd] at h; simp [← h]
  | case3 c r ih =>
    intro p h
    simp only [quotedEnd] at h
    cases hq : quotedEnd r with
    | none => rw [hq] at h; simp at h
    | some q =>
      rw [hq] at h
      simp at h
      have := ih q hq
      simp [← h, ← this]
  | case4 c r h1 h2 ih =>
    intro p h
    rw [quotedEnd] at h
    · cases hq : quotedEnd r with
      | none => rw [hq] at h; simp at h
      | some q =>
        rw [hq] at h
        simp at h
        have := ih q hq
        simp [← h, ← this]
    · exact h1
    · exact h2

theorem scanToken_append : ∀ (fuel : Nat) (l : List Char),
    (scanToken fuel l).1 ++ (scanToken fuel l).2 = l := by
  intro fuel
  induction fuel with
  | zero => intro l; simp [scanToken]
  | succ n ih =>
    intro l
    cases l with
    | nil => simp [scanToken]
    | cons c r =>
      rw [scanToken]
      by_cases hq : c == '"'
      · rw [if_pos hq]
        cases hqe : quotedEnd r with
        | none => simp
        | some p =>
          have hpr := quotedEnd_append r p hqe
          have hc : c = '"' := by simpa using hq
          simp only []
          rw [List.cons_append, List.append_assoc, ih p.2, hpr, hc]
      · rw [if_neg hq]
        by_cases ht : isTokenChar c
        · rw [if_pos ht]
          simp only []
          rw [List.cons_append, ih r]
        · rw [if_neg ht]
          simp

theorem findTokensAux_chars : ∀ (fuel : Nat) (l : List Char) (t : List Char),
    t ∈ findTokensAux fuel l → ∀ c ∈ t, c ∈ l := by
  intro fuel
  induction fuel with
  | zero => intro l t ht; simp [findTokensAux] at ht
  | succ n ih =>
    intro l t ht
    cases l with
    | nil => simp [findTokensAux] at ht
    | cons c r =>
      rw [findTokensAux] at ht
      by_cases he : (scanToken (r.length + 1) (c :: r)).1.isEmpty
      · rw [if_pos he] at ht
        intro x hx
        exact List.mem_cons_of_mem c (ih r t ht x hx)
      · rw [if_neg he] at ht
        have happ := scanToken_append (r.length + 1) (c :: r)
        rcases List.mem_cons.mp ht with h | h
        · intro x hx
          rw [← happ]
          exact List.mem_append_left _ (h ▸ hx)
        · intro x hx
          have := ih _ t h x hx
          rw [← happ]
          exact List.mem_append_right _ this

theorem findTokens_chars (s : String) (t : String) (ht : t ∈ findTokens s) :
    ∀ c ∈ t.data, c ∈ s.data := by
  unfold findTokens at ht
  simp only [List.mem_map] at ht
  obtain ⟨l, hl, rfl⟩ := ht
  exact findTokensAux_chars s.data.length s.data l hl

theorem fieldOf_some_colon (tok : String) (f : String) (h : fieldOf tok = some f) :
    ':' ∈ tok.data := by
  unfold fieldOf at h
  simp only [] at h
  split at h
  · rename_i c tail heq
    have hm : ':' ∈ tok.data.drop
        (tok.data.takeWhile (fun c => !(c == ':' || c == '"'))).length := by
      rw [heq]
      exact List.mem_cons_self _ _
    exact List.mem_of_mem_drop hm
  · simp at h

theorem addRaw_fst (acc : List (Option String × List String))
    (kv : Option String × String) (p : Option String × List String)
    (hp : p ∈ addRaw acc kv) : p.1 ∈ acc.map Prod.fst ∨ p.1 = kv.1 := by
  unfold addRaw at hp
  by_cases h : acc.any (fun p => p.1 == kv.1)
  · rw [if_pos h] at hp
    simp only [List.mem_map] at hp
    obtain ⟨q, hq, hpq⟩ := hp
    left
    by_cases he : q.1 == kv.1
    · rw [if_pos he] at hpq
      simp only [List.mem_map]
      exact ⟨q, hq, by rw [← hpq]⟩
    · rw [if_neg he] at hpq
      simp only [List.mem_map]
      exact ⟨q, hq, by rw [← hpq]⟩
  · rw [if_neg h] at hp
    rcases List.mem_append.mp hp with h' | h'
    · left
      exact List.mem_map_of_mem Prod.fst h'
    · right
      simp at h'
      rw [h']

theorem foldl_addRaw_fst : ∀ (fcs : List (Option String × String))
    (acc : List (Option String × List String)) (p : Option String × List String),
    p ∈ fcs.foldl addRaw acc →
    p.1 ∈ acc.map Prod.fst ∨ p.1 ∈ fcs.map Prod.fst := by
  intro fcs
  induction fcs with
  | nil => intro acc p hp; left; exact List.mem_map_of_mem Prod.fst hp
  | cons kv rest ih =>
    intro acc p hp
    rw [List.foldl_cons] at hp
    rcases ih (addRaw acc kv) p hp with h | h
    · rcases List.mem_map.mp h with ⟨q, hq, hpq⟩
      rcases addRaw_fst acc kv q hq with h' | h'
      · left; rw [← hpq]; exact h'
      · right; rw [← hpq, h']; simp
    · right; simp [h]

theorem zipWith_gfc_fst : ∀ (ts : List String) (fs : List (Option String))
    (x : Option String × String),
    x ∈ List.zipWith (fun t f => get_field_content t f) ts fs → x.1 ∈ fs := by
  intro ts
  induction ts with
  | nil => intro fs x hx; simp at hx
  | cons t ts ih =>
    intro fs x hx
    cases fs with
    | nil => simp at hx
    | cons f fs =>
      rw [List.zipWith_cons_cons] at hx
      rcases List.mem_cons.mp hx with h | h
      · subst h
        exact List.mem_cons_self _ _
      · exact List.mem_cons_of_mem f (ih fs x h)

/-- C6 (code bug): normalize replaces every colon by a space before field
detection (`whitespace_characters` contains ':'), so `parse_terms` can never
recognize a `field:`-scoped token: every scope label in its output is the
unscoped `none`, for every canonicalizer and every input.  In particular, on
the claim's inputs it returns a single unscoped group instead of the field
mappings promised by the spec, by the function's own docstring, and by
`ParseTermsTests.test_parse_terms`. -/
theorem parse_terms_never_scopes (canon : String → List String) (s : String)
    (f : String) :
    lookupLabel (parse_terms canon s) (some f) = none ∧
    parse_terms splitWords "field:test1, other_field:test2"
      = [(none, ["field", "test1", "other_field", "test2"])] ∧
    parse_terms splitWords "This:isn't a field"
      = [(none, ["this", "isn't", "a", "field"])] := by
  refine ⟨?_, by decide, by decide⟩
  unfold lookupLabel
  rw [List.find?_eq_none.mpr, Option.map_none']
  intro p hp
  unfold parse_terms at hp
  simp only [List.mem_map] at hp
  obtain ⟨q, hq, hpq⟩ := hp
  rcases foldl_addRaw_fst _ [] q hq with h | h
  · simp at h
  · rcases List.mem_map.mp h with ⟨g, hg, hfst'⟩
    have hg1 : g.1 ∈ (findTokens (normalize s)).map fieldOf :=
      zipWith_gfc_fst _ _ g hg
    rcases List.mem_map.mp hg1 with ⟨tok, htok, hfo⟩
    intro hbeq
    rw [beq_iff_eq] at hbeq
    have hq1 : q.1 = some f := by rw [← hpq] at hbeq; exact hbeq
    have hfo' : fieldOf tok = some f := by rw [hfo, hfst', hq1]
    have hcolon : ':' ∈ tok.data := fieldOf_some_colon tok f hfo'
    exact normalize_no_colon s (findTokens_chars _ _ htok ':' hcolon)

theorem removeAllAux_fuel_add (pat : List Char) (hpat : pat ≠ []) :
    ∀ (fuel k : Nat) (l : List Char), l.length ≤ fuel →
    removeAllAux pat (fuel + k) l = removeAllAux pat fuel l := by
  intro fuel
  induction fuel with
  | zero =>
    intro k l hl
    have : l = [] := List.eq_nil_of_length_eq_zero (Nat.le_zero.mp hl)
    subst this
    cases k with
    | zero => rfl
    | succ k => rfl
  | succ n ih =>
    intro k l hl
    cases l with
    | nil =>
      cases k with
      | zero => rfl
      | succ k => rfl
    | cons c r =>
      have hstep : n + 1 + k = (n + k) + 1 := by omega
      rw [hstep, removeAllAux, removeAllAux]
      by_cases hp : pat.isPrefixOf (c :: r)
      · rw [if_pos hp, if_pos hp]
        have hlen : ((c :: r).drop pat.length).length ≤ n := by
          simp only [List.length_drop, List.length_cons]
          have : 0 < pat.length := List.length_pos.mpr hpat
          simp at hl
          omega
        exact ih k _ hlen
      · rw [if_neg hp, if_neg hp]
        have hlen : r.length ≤ n := by simp at hl; omega
        rw [ih k r hlen]

theorem removeAllAux_fuel (pat : List Char) (hpat : pat ≠ []) (fuel fuel' : Nat)
    (l : List Char) (h : l.length ≤ fuel) (h' : l.length ≤ fuel') :
    removeAllAux pat fuel l = removeAllAux pat fuel' l := by
  rcases Nat.le_total fuel fuel' with hle | hle
  · obtain ⟨k, rfl⟩ := Nat.le.dest hle
    exact (removeAllAux_fuel_add pat hpat fuel k l h).symm
  · obtain ⟨k, rfl⟩ := Nat.le.dest hle
    exact removeAllAux_fuel_add pat hpat fuel' k l h'

theorem removeAll_eq_aux (pat : List Char) (hpat : pat ≠ []) (l : List Char) :
    removeAll pat l = removeAllAux pat l.length l := by
  unfold removeAll
  rw [if_neg (by simpa using hpat)]

theorem removeAll_pat_append (pat : List Char) (hpat : pat ≠ []) (rest : List Char) :
    removeAll pat (pat ++ rest) = removeAll pat rest := by
  cases pat with
  | nil => exact absurd rfl hpat
  | cons p ps =>
    rw [removeAll_eq_aux _ hpat, removeAll_eq_aux _ hpat]
    have hlen : ((p :: ps) ++ rest).length = (ps ++ rest).length + 1 := by simp
    rw [hlen, List.cons_append, removeAllAux,
      if_pos ( List.isPrefixOf_iff_prefix.mpr ⟨rest, by simp⟩)]
    have hdrop : (p :: (ps ++ rest)).drop (p :: ps).length = rest := by
      have : p :: (ps ++ rest) = (p :: ps) ++ rest := by simp
      rw [this, List.drop_left]
    rw [hdrop]
    exact removeAllAux_fuel _ hpat _ _ _ (by simp) (Nat.le_refl _)

theorem removeAllAux_no_colon (pat : List Char) (hc : ':' ∈ pat) :
    ∀ (fuel : Nat) (l : List Char), ':' ∉ l → removeAllAux pat fuel l = l := by
  intro fuel
  induction fuel with
  | zero => intro l _; rfl
  | succ n ih =>
    intro l hl
    cases l with
    | nil => rfl
    | cons c r =>
      rw [removeAllAux]
      have hnp : ¬ pat.isPrefixOf (c :: r) := by
        intro hp
        obtain ⟨t, ht⟩ := List.isPrefixOf_iff_prefix.mp hp
        exact hl (ht ▸ List.mem_append_left t hc)
      rw [if_neg hnp, ih r (fun h => hl (List.mem_cons_of_mem c h))]

theorem removeAll_no_colon (pat : List Char) (hpat : pat ≠ []) (hc : ':' ∈ pat)
    (l : List Char) (hl : ':' ∉ l) : removeAll pat l = l := by
  rw [removeAll_eq_aux _ hpat]
  exact removeAllAux_no_colon pat hc _ l hl

theorem removeAllAux_walk (f : List Char) (hfc : ':' ∉ f) :
    ∀ (w : List Char) (fuel : Nat) (y : List Char), ':' ∉ w →
    (w ++ (f ++ ':' :: y)).length ≤ fuel →
    removeAllAux (f ++ [':']) fuel (w ++ (f ++ ':' :: y))
      = w ++ removeAllAux (f ++ [':']) fuel (f ++ ':' :: y) := by
  intro w
  induction w with
  | nil => intro fuel y _ _; simp
  | cons c w' ih =>
    intro fuel y hw hfuel
    cases fuel with
    | zero => simp at hfuel
    | succ n =>
      have hcw : c :: w' ++ (f ++ ':' :: y) = c :: (w' ++ (f ++ ':' :: y)) := by simp
      rw [hcw, removeAllAux]
      have hnp : ¬ (f ++ [':']).isPrefixOf (c :: (w' ++ (f ++ ':' :: y))) := by
        intro hp
        obtain ⟨t, ht⟩ := List.isPrefixOf_iff_prefix.mp hp
        have hre : c :: (w' ++ (f ++ ':' :: y)) = (c :: w' ++ f) ++ (':' :: y) := by
          simp
        have htake := congrArg (fun l => List.take (f ++ [':']).length l) ht
        simp only at htake
        rw [List.take_left] at htake
        rw [hre, List.take_append_eq_append_take] at htake
        have hle : (f ++ [':']).length ≤ (c :: w' ++ f).length := by simp
        have hz : (f ++ [':']).length - (c :: w' ++ f).length = 0 := by omega
        rw [hz, List.take_zero, List.append_nil] at htake
        have hcolon : ':' ∈ f ++ [':'] := List.mem_append_right f (by simp)
        rw [htake] at hcolon
        have := List.mem_of_mem_take hcolon
        rcases List.mem_cons.mp this with h | h
        · exact hw (by simp [← h])
        · rcases List.mem_append.mp h with h' | h'
          · exact hw (List.mem_cons_of_mem c h')
          · exact hfc h'
      rw [if_neg hnp]
      have hn : (w' ++ (f ++ ':' :: y)).length ≤ n := by
        simp at hfuel ⊢
        omega
      rw [ih n y (fun h => hw (List.mem_cons_of_mem c h)) hn]
      have hfu : removeAllAux (f ++ [':']) n (f ++ ':' :: y)
          = removeAllAux (f ++ [':']) (n + 1) (f ++ ':' :: y) := by
        apply removeAllAux_fuel _ (by simp) _ _ _ (by simp at hn ⊢; omega) (by simp at hn ⊢; omega)
      rw [hfu]
      simp

/-- C10: stripping a recognized field label removes every occurrence of the
substring `field + ":"` anywhere in the token, not only the leading prefix:
for a token of the shape `f:xf:y` (with no further colons or quotes inside
`f`, `x`, `y`), the stored value is `x ++ y`; in particular the token
`a:xa:y` under label `a` yields `xy`, not `xa:y`. -/
theorem get_field_content_strips_all (f x y : List Char)
    (_hf : f ≠ []) (hfc : ':' ∉ f) (hxc : ':' ∉ x) (hyc : ':' ∉ y)
    (hxq : '"' ∉ x) (hyq : '"' ∉ y) :
    get_field_content ⟨f ++ ':' :: (x ++ (f ++ ':' :: y))⟩ (some ⟨f⟩)
      = (some ⟨f⟩, ⟨x ++ y⟩) ∧
    get_field_content "a:xa:y" (some "a") = (some "a", "xy") ∧
    ("xy" : String) ≠ "xa:y" := by
  refine ⟨?_, by decide, by decide⟩
  have hpat : f ++ [':'] ≠ [] := by simp
  have hcolon : ':' ∈ f ++ [':'] := List.mem_append_right f (by simp)
  unfold get_field_content
  simp only []
  have h12 : removeAll (f ++ [':']) (f ++ ':' :: (x ++ (f ++ ':' :: y))) = x ++ y := by
    have hh : f ++ ':' :: (x ++ (f ++ ':' :: y))
        = (f ++ [':']) ++ (x ++ (f ++ ':' :: y)) := by simp
    rw [hh, removeAll_pat_append _ hpat]
    rw [removeAll_eq_aux _ hpat]
    rw [removeAllAux_walk f hfc x _ y hxc (Nat.le_refl _)]
    have h3 : removeAllAux (f ++ [':']) (x ++ (f ++ ':' :: y)).length (f ++ ':' :: y)
        = removeAll (f ++ [':']) (f ++ ':' :: y) := by
      rw [removeAll_eq_aux _ hpat]
      exact removeAllAux_fuel _ hpat _ _ _ (by simp) (Nat.le_refl _)
    rw [h3]
    have h4 : f ++ ':' :: y = (f ++ [':']) ++ y := by simp
    rw [h4, removeAll_pat_append _ hpat, removeAll_no_colon _ hpat hcolon y hyc]
  rw [h12]
  have hnq : ((x ++ y).head? == some '"') = false := by
    cases hxy : x ++ y with
    | nil => rfl
    | cons a t =>
      have ha : a ∈ x ++ y := by rw [hxy]; exact List.mem_cons_self _ _
      have ha' : a ≠ '"' := by
        rcases List.mem_append.mp ha with h | h
        · exact fun he => hxq (he ▸ h)
        · exact fun he => hyq (he ▸ h)
      simp [ha']
  rw [hnq]
  simp

/-- C7 (amended): when the GlobalOccuranceCount row for one of an object's
IndexRecords is missing during unindexing, the DoesNotExist is caught and
only logged — not fatal — and the rest of the unindex operation proceeds
(records whose counter rows exist are still deleted); but the IndexRecord
whose counter is missing is itself left undeleted, because the exception
aborts its delete transaction before `super().delete()` runs. -/
theorem unindex_missing_counter :
    (∀ (s : SState) (r : IndexRecord), s.counts r.iexact = none →
      recordDelete s r = s) ∧
    (unindex missingCounterState 0).records = [⟨0, "f", "a", 1⟩] ∧
    (unindex missingCounterState 0).counts "b" = none := by
  refine ⟨?_, by decide, ?_⟩
  · intro s r h
    unfold recordDelete
    rw [h]
  · decide

/-- C7 counterexample: the claim "the IndexRecord itself is still deleted"
fails — in a state where the record (0, "f", "a", 1) has no counter row,
unindexing its owner leaves that record live. -/
theorem unindex_missing_counter_keeps_record :
    missingCounterState.counts "a" = none ∧
    ⟨0, "f", "a", 1⟩ ∈ (unindex missingCounterState 0).records := by
  constructor
  · decide
  · decide

theorem resolveStep_none {α : Type} (pkOf : α → Nat) (order : List (Nat × Nat)) :
    ∀ (rest : List α), rest.foldl (resolveStep pkOf order) none = none := by
  intro rest
  induction rest with
  | nil => rfl
  | cons a t ih => rw [List.foldl_cons]; exact ih

theorem resolveResults_error_aux {α : Type} (pkOf : α → Nat)
    (order : List (Nat × Nat)) :
    ∀ (results : List α) (acc : List (Option α)),
    (∃ r ∈ results, ∃ p, order.lookup (pkOf r) = some p ∧ acc.length ≤ p) →
    results.foldl (resolveStep pkOf order) (some acc) = none := by
  intro results
  induction results with
  | nil => intro acc h; simp at h
  | cons r rest ih =>
    intro acc h
    rw [List.foldl_cons]
    rcases h with ⟨r', hr', p', hp', hlen⟩
    rcases List.mem_cons.mp hr' with he | he
    · subst he
      have hred : resolveStep pkOf order (some acc) r' = none := by
        unfold resolveStep
        rw [hp']
        simp only []
        rw [if_neg (by omega)]
      rw [hred]
      exact resolveStep_none pkOf order rest
    · cases hl : order.lookup (pkOf r) with
      | none =>
        have hred : resolveStep pkOf order (some acc) r = some acc := by
          unfold resolveStep
          rw [hl]
        rw [hred]
        exact ih acc ⟨r', he, p', hp', hlen⟩
      | some p =>
        by_cases hplen : p < acc.length
        · have hred : resolveStep pkOf order (some acc) r = some (acc.set p (some r)) := by
            unfold resolveStep
            rw [hl]
            simp only []
            rw [if_pos hplen]
          rw [hred]
          exact ih _ ⟨r', he, p', hp', by simpa using hlen⟩
        · have hred : resolveStep pkOf order (some acc) r = none := by
            unfold resolveStep
            rw [hl]
            simp only []
            rw [if_neg hplen]
          rw [hred]
          exact resolveStep_none pkOf order rest

/-- C9 (amended): ranked identifiers are resolved against the caller-supplied
collection preserving rank order when every ranked identifier resolves, and
identifiers that fail to resolve are dropped cleanly only when every
surviving record's rank position is below the number of survivors (e.g. the
missing identifiers ranked last); otherwise the placement
`sorted_results[order[result.pk]] = result` raises an index error — a
resolution failure is not always silently dropped. -/
theorem resolveResults_spec {α : Type} (pkOf : α → Nat) (queryset : List α)
    (order : List (Nat × Nat)) :
    ((∃ r ∈ queryset.filter (fun r => (order.lookup (pkOf r)).isSome), ∃ p,
        order.lookup (pkOf r) = some p ∧
        (queryset.filter (fun r => (order.lookup (pkOf r)).isSome)).length ≤ p) →
      resolveResults pkOf queryset order = none) ∧
    resolveResults id [30, 10, 20] [(10, 0), (20, 1), (30, 2)]
      = some [some 10, some 20, some 30] ∧
    resolveResults id [10, 20] [(10, 0), (20, 1), (30, 2)]
      = some [some 10, some 20] := by
  refine ⟨?_, by decide, by decide⟩
  intro h
  unfold resolveResults
  apply resolveResults_error_aux
  simpa using h

/-- C9 counterexample: with ranked identifiers 10, 20, 30 (positions 0, 1, 2)
and a record collection in which identifier 20 no longer resolves, the
resolution step is an error (IndexError on `sorted_results[2] = result`), not
a silent drop. -/
theorem resolveResults_error_concrete :
    resolveResults id [10, 30] [(10, 0), (20, 1), (30, 2)] = none := by decide

theorem sumOcc_append (l₁ l₂ : List IndexRecord) (t : String) :
    sumOcc (l₁ ++ l₂) t = sumOcc l₁ t + sumOcc l₂ t := by
  simp [sumOcc, List.filter_append]

theorem sumOcc_cons (r : IndexRecord) (rs : List IndexRecord) (t : String) :
    sumOcc (r :: rs) t = (if r.iexact == t then r.occurances else 0) + sumOcc rs t := by
  by_cases h : r.iexact == t
  · simp [sumOcc, List.filter_cons, h]
  · simp [sumOcc, List.filter_cons, h]

theorem sumOcc_nonneg (rs : List IndexRecord) (t : String)
    (hpos : ∀ r ∈ rs, 1 ≤ r.occurances) : 0 ≤ sumOcc rs t := by
  apply List.sum_nonneg
  intro x hx
  simp only [List.mem_map, List.mem_filter] at hx
  obtain ⟨r, ⟨hr, _⟩, rfl⟩ := hx
  have := hpos r hr
  omega

theorem sumOcc_erase (r : IndexRecord) (rs : List IndexRecord) (t : String)
    (hr : r ∈ rs) :
    sumOcc (rs.erase r) t = sumOcc rs t - (if r.iexact == t then r.occurances else 0) := by
  obtain ⟨l₁, l₂, _, hrs, herase⟩ := List.exists_erase_eq hr
  rw [herase, hrs, sumOcc_append, sumOcc_append, sumOcc_cons]
  omega

theorem sumOcc_ge_of_mem (r : IndexRecord) (rs : List IndexRecord) (t : String)
    (hr : r ∈ rs) (ht : r.iexact = t)
    (hpos : ∀ r' ∈ rs, 1 ≤ r'.occurances) : r.occurances ≤ sumOcc rs t := by
  obtain ⟨l₁, l₂, _, hrs, _⟩ := List.exists_erase_eq hr
  subst hrs
  rw [sumOcc_append, sumOcc_cons, if_pos (by simp [ht])]
  have h₁ : 0 ≤ sumOcc l₁ t := sumOcc_nonneg l₁ t
    (fun r' hr' => hpos r' (List.mem_append_left _ hr'))
  have h₂ : 0 ≤ sumOcc l₂ t := sumOcc_nonneg l₂ t
    (fun r' hr' => hpos r' (List.mem_append_right _ (List.mem_cons_of_mem r hr')))
  omega

theorem recordDelete_spec (s : SState) (r : IndexRecord)
    (hc : Consistent s) (hr : r ∈ s.records) :
    (recordDelete s r).records = s.records.erase r ∧ Consistent (recordDelete s r) := by
  obtain ⟨hpos, hcounts⟩ := hc
  have hge : r.occurances ≤ sumOcc s.records r.iexact :=
    sumOcc_ge_of_mem r s.records r.iexact hr rfl hpos
  have hrpos : 1 ≤ r.occurances := hpos r hr
  have hne : ¬ sumOcc s.records r.iexact = 0 := by omega
  have hcr : s.counts r.iexact = some (sumOcc s.records r.iexact) := by
    rw [hcounts r.iexact, if_neg hne]
  unfold recordDelete
  rw [hcr]
  simp only []
  refine ⟨trivial, ?_, ?_⟩
  · intro r' hr'
    exact hpos r' ((List.erase_sublist r s.records).mem hr')
  · intro t
    rw [sumOcc_erase r s.records t hr]
    split
    · rename_i hle
      show gocDel s.counts r.iexact t = _
      unfold gocDel
      by_cases ht : t = r.iexact
      · rw [if_pos ht]
        subst ht
        have hz : sumOcc s.records r.iexact
            - (if (r.iexact == r.iexact) = true then r.occurances else 0) = 0 := by
          simp only [beq_self_eq_true, if_true]
          omega
        rw [hz]
        simp
      · rw [if_neg ht]
        have hbe : (r.iexact == t) = false := by
          simp only [beq_eq_false_iff_ne]
          exact fun h => ht h.symm
        rw [hbe]
        simp only [Bool.false_eq_true, if_false, Int.sub_zero]
        exact hcounts t
    · rename_i hle
      show gocSet s.counts r.iexact (sumOcc s.records r.iexact - r.occurances) t = _
      unfold gocSet
      by_cases ht : t = r.iexact
      · rw [if_pos ht]
        subst ht
        have hz : sumOcc s.records r.iexact
            - (if (r.iexact == r.iexact) = true then r.occurances else 0)
            = sumOcc s.records r.iexact - r.occurances := by
          simp only [beq_self_eq_true, if_true]
        rw [hz, if_neg (by omega)]
      · rw [if_neg ht]
        have hbe : (r.iexact == t) = false := by
          simp only [beq_eq_false_iff_ne]
          exact fun h => ht h.symm
        rw [hbe]
        simp only [Bool.false_eq_true, if_false, Int.sub_zero]
        exact hcounts t

theorem cons_sublist_erase (r : IndexRecord) (L rs : List IndexRecord)
    (h : List.Sublist (r :: L) rs) : List.Sublist L (rs.erase r) := by
  have h' := h.erase r
  rw [List.erase_cons_head] at h'
  exact h'

theorem foldDelete_spec : ∀ (L : List IndexRecord) (s : SState),
    Consistent s → List.Sublist L s.records →
    Consistent (L.foldl recordDelete s) ∧
    (L.foldl recordDelete s).records = L.foldl List.erase s.records := by
  intro L
  induction L with
  | nil => intro s hc _; exact ⟨hc, rfl⟩
  | cons r L ih =>
    intro s hc hsub
    have hr : r ∈ s.records := hsub.mem (List.mem_cons_self _ _)
    obtain ⟨hrec, hc'⟩ := recordDelete_spec s r hc hr
    rw [List.foldl_cons, List.foldl_cons]
    have hsub' : List.Sublist L (recordDelete s r).records := by
      rw [hrec]
      exact cons_sublist_erase r L s.records hsub
    obtain ⟨hc'', hrec''⟩ := ih (recordDelete s r) hc' hsub'
    exact ⟨hc'', by rw [hrec'', hrec]⟩

theorem foldl_erase_cons (x : IndexRecord) : ∀ (L rs : List IndexRecord),
    (∀ y ∈ L, y ≠ x) →
    L.foldl List.erase (x :: rs) = x :: L.foldl List.erase rs := by
  intro L
  induction L with
  | nil => intro rs _; rfl
  | cons y L ih =>
    intro rs hL
    rw [List.foldl_cons, List.foldl_cons]
    rw [List.erase_cons_tail (fun he => (hL y (List.mem_cons_self _ _)) ((beq_iff_eq.mp he).symm))]
    exact ih (rs.erase y) (fun z hz => hL z (List.mem_cons_of_mem y hz))

theorem foldl_erase_filter (p : IndexRecord → Bool) : ∀ (rs : List IndexRecord),
    (rs.filter p).foldl List.erase rs = rs.filter (fun r => !p r) := by
  intro rs
  induction rs with
  | nil => rfl
  | cons x rest ih =>
    by_cases hp : p x
    · rw [List.filter_cons_of_pos hp, List.foldl_cons, List.erase_cons_head,
        List.filter_cons_of_neg (by simp [hp]), ih]
    · rw [List.filter_cons_of_neg hp, List.filter_cons_of_pos (by simp [hp])]
      rw [foldl_erase_cons x _ rest ?_, ih]
      intro y hy
      have := (List.mem_filter.mp hy).2
      intro he
      rw [he] at this
      simp [hp] at this

theorem unindex_spec (s : SState) (o : Nat) (hc : Consistent s) :
    Consistent (unindex s o) ∧
    (unindex s o).records = s.records.filter (fun r => !(r.owner == o)) := by
  unfold unindex
  obtain ⟨h1, h2⟩ := foldDelete_spec (s.records.filter (fun r => r.owner == o)) s hc
    (List.filter_sublist s.records)
  exact ⟨h1, by rw [h2, foldl_erase_filter]⟩

theorem sumOcc_nil (t : String) : sumOcc [] t = 0 := rfl

theorem getD_counts (s : SState) (t : String)
    (hc : ∀ u, s.counts u = if sumOcc s.records u = 0 then none else some (sumOcc s.records u)) :
    (s.counts t).getD 0 = sumOcc s.records t := by
  rw [hc t]
  by_cases h : sumOcc s.records t = 0
  · rw [if_pos h, h]
    rfl
  · rw [if_neg h]
    rfl

theorem indexTerm_fresh (canon : String → List String) (o : Nat) (f : String)
    (text term : String) (s : SState)
    (hc : Consistent s)
    (habs : s.records.any (fun r => r.owner == o && r.field == f && r.iexact == term) = false)
    (htc : 1 ≤ (substrCount (joinTokens (canon text)) term : Int)) :
    (indexTerm canon o f text term s).records
      = s.records ++ [⟨o, f, term, (substrCount (joinTokens (canon text)) term : Int)⟩] ∧
    Consistent (indexTerm canon o f text term s) := by
  obtain ⟨hpos, hcounts⟩ := hc
  unfold indexTerm
  simp only [habs, Bool.false_eq_true, if_false]
  refine ⟨trivial, ?_, ?_⟩
  · intro r' hr'
    rcases List.mem_append.mp hr' with h | h
    · exact hpos r' h
    · simp only [List.mem_singleton] at h
      rw [h]
      exact htc
  · intro t
    have hsum : sumOcc (s.records ++ [⟨o, f, term,
        (substrCount (joinTokens (canon text)) term : Int)⟩]) t
        = sumOcc s.records t + (if term == t then (substrCount (joinTokens (canon text)) term : Int) else 0) := by
      rw [sumOcc_append, sumOcc_cons, sumOcc_nil]
      simp
    rw [hsum]
    show gocSet s.counts term _ t = _
    unfold gocSet
    by_cases ht : t = term
    · subst ht
      rw [if_pos rfl, getD_counts s t hcounts]
      have h0 : 0 ≤ sumOcc s.records t := sumOcc_nonneg _ _ hpos
      simp only [beq_self_eq_true, if_true]
      rw [if_neg (by omega)]
    · rw [if_neg ht]
      have hbe : (term == t) = false := by
        simp only [beq_eq_false_iff_ne, ne_eq]
        exact fun h => ht h.symm
      rw [hbe]
      simp only [Bool.false_eq_true, if_false, Int.add_zero]
      exact hcounts t

theorem joinD_cons (t : List Char) (ts : List (List Char)) (h : ts ≠ []) :
    joinD (t :: ts) = t ++ ' ' :: joinD ts := by
  cases ts with
  | nil => exact absurd rfl h
  | cons a l => rfl

theorem joinD_left (m q : List (List Char)) (hm : m ≠ []) :
    List.IsPrefix (joinD m) (joinD (m ++ q)) := by
  induction m with
  | nil => exact absurd rfl hm
  | cons t m' ih =>
    cases hmm' : m' with
    | nil =>
      subst hmm'
      cases q with
      | nil => exact List.prefix_refl _
      | cons b q' =>
        show List.IsPrefix (joinD [t]) (joinD (t :: b :: q'))
        rw [joinD_cons t (b :: q') (by simp)]
        exact ⟨' ' :: joinD (b :: q'), rfl⟩
    | cons a l =>
      rw [← hmm']
      obtain ⟨k, hk⟩ := ih (by rw [hmm']; simp)
      refine ⟨k, ?_⟩
      rw [joinD_cons t m' (by rw [hmm']; simp), List.cons_append,
        joinD_cons t (m' ++ q) (by rw [hmm']; simp), ← hk]
      simp

theorem joinD_right (p q : List (List Char)) :
    List.IsInfix (joinD q) (joinD (p ++ q)) := by
  induction p with
  | nil => exact List.infix_refl _
  | cons t p' ih =>
    cases hpq : p' ++ q with
    | nil =>
      have hq : q = [] := by
        rcases List.append_eq_nil.mp hpq with ⟨_, h⟩
        exact h
      subst hq
      simp [joinD]
    | cons a l =>
      show List.IsInfix (joinD q) (joinD (t :: (p' ++ q)))
      rw [joinD_cons t (p' ++ q) (by rw [hpq]; simp)]
      have hsuf : List.IsInfix (joinD (p' ++ q)) (t ++ ' ' :: joinD (p' ++ q)) :=
        ⟨t ++ [' '], [], by simp⟩
      exact ih.trans hsuf

theorem joinD_middle (p m q : List (List Char)) (hm : m ≠ []) :
    List.IsInfix (joinD m) (joinD (p ++ m ++ q)) := by
  have h1 : List.IsPrefix (joinD m) (joinD (m ++ q)) := joinD_left m q hm
  have h2 : List.IsInfix (joinD (m ++ q)) (joinD (p ++ (m ++ q))) := joinD_right p (m ++ q)
  have := ( List.IsPrefix.isInfix h1).trans h2
  rwa [← List.append_assoc] at this

theorem countOccAux_pos (pat : List Char) (hpat : pat ≠ []) :
    ∀ (fuel : Nat) (l : List Char), l.length ≤ fuel →
    List.IsInfix pat l → 1 ≤ countOccAux pat fuel l := by
  intro fuel
  induction fuel with
  | zero =>
    intro l hl hinf
    have : l = [] := List.eq_nil_of_length_eq_zero (Nat.le_zero.mp hl)
    subst this
    exact absurd (List.eq_nil_of_infix_nil hinf) hpat
  | succ n ih =>
    intro l hl hinf
    cases l with
    | nil => exact absurd (List.eq_nil_of_infix_nil hinf) hpat
    | cons c r =>
      rw [countOccAux]
      by_cases hp : pat.isPrefixOf (c :: r)
      · rw [if_pos hp]
        omega
      · rw [if_neg hp]
        have hinf' : List.IsInfix pat r := by
          rcases List.infix_cons_iff.mp hinf with h | h
          · exact absurd ( List.isPrefixOf_iff_prefix.mpr h) hp
          · exact h
        exact ih r (by simp at hl; omega) hinf'

theorem countOcc_pos (pat l : List Char) (hpat : pat ≠ [])
    (hinf : List.IsInfix pat l) : 1 ≤ countOcc pat l := by
  unfold countOcc
  rw [if_neg (by simpa using hpat)]
  exact countOccAux_pos pat hpat l.length l (Nat.le_refl _) hinf

theorem generateTerms_count_pos (canon : String → List String) (text term : String)
    (ht : term ∈ generateTerms canon text) :
    1 ≤ (substrCount (joinTokens (canon text)) term : Int) := by
  obtain ⟨i, j, hj1, hj4, hij, hws, hterm⟩ := generateTerms_window_char canon text term ht
  have hpat : term.data ≠ [] := by
    intro h
    rw [wsOnly, h] at hws
    simp at hws
  have hdata : term.data = joinD ((((canon text).drop i).take j).map String.data) := by
    rw [hterm]
    rfl
  have hjoin : (joinTokens (canon text)).data = joinD ((canon text).map String.data) := rfl
  set L := (canon text).map String.data with hL
  have hwin : (((canon text).drop i).take j).map String.data = (L.drop i).take j := by
    rw [hL, List.map_take, List.map_drop]
  have hLlen : L.length = (canon text).length := by rw [hL, List.length_map]
  have hm : (L.drop i).take j ≠ [] := by
    intro h
    have := congrArg List.length h
    simp only [List.length_take, List.length_drop, List.length_nil] at this
    omega
  have hdecomp : L = L.take i ++ ((L.drop i).take j ++ (L.drop i).drop j) := by
    rw [List.take_append_drop, List.take_append_drop]
  have hinf : List.IsInfix term.data (joinD L) := by
    rw [hdata, hwin]
    have := joinD_middle (L.take i) ((L.drop i).take j) ((L.drop i).drop j) hm
    rw [List.append_assoc] at this
    rw [← hdecomp] at this
    exact this
  have := countOcc_pos term.data (joinD L) hpat hinf
  unfold substrCount
  rw [hjoin]
  omega

theorem foldl_flatMap {α β γ : Type} (g : α → List β) (f : γ → β → γ) :
    ∀ (l : List α) (init : γ),
    (l.flatMap g).foldl f init = l.foldl (fun acc x => (g x).foldl f acc) init := by
  intro l
  induction l with
  | nil => intro init; rfl
  | cons x l ih =>
    intro init
    rw [List.flatMap_cons, List.foldl_append, List.foldl_cons, ih]

theorem doIndex_eq_triples (canon : String → List String) (o : Nat)
    (fieldsData : List (String × List String)) (s : SState) :
    doIndex canon o fieldsData s = (indexTriples canon fieldsData).foldl
      (fun s tr => indexTerm canon o tr.1 tr.2.1 tr.2.2 s) s := by
  unfold doIndex indexTriples
  rw [foldl_flatMap]
  congr 1
  funext acc fd
  rw [foldl_flatMap]
  congr 1
  funext acc' text
  rw [List.foldl_map]

theorem foldIndexTriples (canon : String → List String) (o : Nat) :
    ∀ (triples : List (String × String × String)) (s : SState),
    Consistent s →
    (∀ tr ∈ triples, 1 ≤ (substrCount (joinTokens (canon tr.2.1)) tr.2.2 : Int)) →
    (triples.map (fun tr => (tr.1, tr.2.2))).Nodup →
    (∀ tr ∈ triples, ∀ r ∈ s.records,
      ¬(r.owner = o ∧ r.field = tr.1 ∧ r.iexact = tr.2.2)) →
    Consistent (triples.foldl (fun s tr => indexTerm canon o tr.1 tr.2.1 tr.2.2 s) s) ∧
    (triples.foldl (fun s tr => indexTerm canon o tr.1 tr.2.1 tr.2.2 s) s).records
      = s.records ++ triples.map (fun tr =>
          ⟨o, tr.1, tr.2.2, (substrCount (joinTokens (canon tr.2.1)) tr.2.2 : Int)⟩) := by
  intro triples
  induction triples with
  | nil => intro s hc _ _ _; exact ⟨hc, by simp⟩
  | cons tr rest ih =>
    intro s hc htc hnd hfresh
    have habs : s.records.any
        (fun r => r.owner == o && r.field == tr.1 && r.iexact == tr.2.2) = false := by
      rw [List.any_eq_false]
      intro r hr
      have := hfresh tr (List.mem_cons_self _ _) r hr
      simp only [Bool.and_eq_true, beq_iff_eq]
      intro hcontr
      exact this ⟨hcontr.1.1, hcontr.1.2, hcontr.2⟩
    obtain ⟨hrec, hc'⟩ := indexTerm_fresh canon o tr.1 tr.2.1 tr.2.2 s hc habs
      (htc tr (List.mem_cons_self _ _))
    rw [List.foldl_cons]
    have hkey : ∀ tr' ∈ rest, ¬(tr.1 = tr'.1 ∧ tr.2.2 = tr'.2.2) := by
      intro tr' htr' hcontr
      rw [List.map_cons, List.nodup_cons] at hnd
      apply hnd.1
      rw [List.mem_map]
      exact ⟨tr', htr', by rw [← hcontr.1, ← hcontr.2]⟩
    have hfresh' : ∀ tr' ∈ rest, ∀ r ∈ (indexTerm canon o tr.1 tr.2.1 tr.2.2 s).records,
        ¬(r.owner = o ∧ r.field = tr'.1 ∧ r.iexact = tr'.2.2) := by
      intro tr' htr' r hr
      rw [hrec] at hr
      rcases List.mem_append.mp hr with h | h
      · exact hfresh tr' (List.mem_cons_of_mem _ htr') r h
      · simp only [List.mem_singleton] at h
        subst h
        intro hcontr
        exact hkey tr' htr' ⟨hcontr.2.1, hcontr.2.2⟩
    have hnd' : (rest.map (fun tr => (tr.1, tr.2.2))).Nodup := by
      rw [List.map_cons, List.nodup_cons] at hnd
      exact hnd.2
    have htc' : ∀ tr' ∈ rest, 1 ≤ (substrCount (joinTokens (canon tr'.2.1)) tr'.2.2 : Int) :=
      fun tr' h => htc tr' (List.mem_cons_of_mem _ h)
    obtain ⟨hcf, hrf⟩ := ih (indexTerm canon o tr.1 tr.2.1 tr.2.2 s) hc' htc' hnd' hfresh'
    refine ⟨hcf, ?_⟩
    rw [hrf, hrec, List.map_cons, List.append_assoc]
    rfl

theorem indexTriples_mem (canon : String → List String)
    (fieldsData : List (String × List String)) (tr : String × String × String)
    (h : tr ∈ indexTriples canon fieldsData) :
    tr.2.2 ∈ generateTerms canon tr.2.1 := by
  unfold indexTriples at h
  simp only [List.mem_flatMap, List.mem_map] at h
  obtain ⟨fd, _, text, _, term, hterm, rfl⟩ := h
  exact hterm

theorem indexTriples_keys (canon : String → List String)
    (fieldsData : List (String × List String)) :
    (indexTriples canon fieldsData).map (fun tr => (tr.1, tr.2.2))
      = fieldsData.flatMap (fun fd =>
          (fd.2.flatMap (generateTerms canon)).map (fun term => (fd.1, term))) := by
  unfold indexTriples
  rw [List.map_flatMap]
  congr 1
  funext fd
  rw [List.map_flatMap, List.map_flatMap]
  congr 1
  funext text
  rw [List.map_map]
  rfl

theorem indexTriples_keys_nodup (canon : String → List String)
    (fieldsData : List (String × List String)) (h : NodupTerms canon fieldsData) :
    ((indexTriples canon fieldsData).map (fun tr => (tr.1, tr.2.2))).Nodup := by
  rw [indexTriples_keys]
  rw [List.nodup_flatMap]
  constructor
  · intro fd hfd
    apply List.Nodup.map
    · intro a b hab
      simpa using hab
    · exact h.2 fd hfd
  · have hpw : fieldsData.Pairwise (fun a b => a.1 ≠ b.1) := by
      have := h.1
      rw [List.Nodup, List.pairwise_map] at this
      exact this
    apply hpw.imp
    intro a b hab
    intro x hxa hxb
    simp only [List.mem_map] at hxa hxb
    obtain ⟨t, _, rfl⟩ := hxa
    obtain ⟨t', _, hx⟩ := hxb
    apply hab
    have := congrArg Prod.fst hx
    simpa using this.symm

theorem doIndex_spec (canon : String → List String) (o : Nat)
    (fieldsData : List (String × List String)) (s : SState)
    (hc : Consistent s) (hno : ∀ r ∈ s.records, ¬ r.owner = o)
    (hnd : NodupTerms canon fieldsData) :
    Consistent (doIndex canon o fieldsData s) ∧
    (doIndex canon o fieldsData s).records
      = s.records ++ freshRecords canon o fieldsData := by
  rw [doIndex_eq_triples]
  exact foldIndexTriples canon o (indexTriples canon fieldsData) s hc
    (fun tr htr => generateTerms_count_pos canon tr.2.1 tr.2.2
      (indexTriples_mem canon fieldsData tr htr))
    (indexTriples_keys_nodup canon fieldsData hnd)
    (fun tr _ r hr hcontr => hno r hr hcontr.1)

theorem freshRecords_owner (canon : String → List String) (o : Nat)
    (fieldsData : List (String × List String)) (r : IndexRecord)
    (h : r ∈ freshRecords canon o fieldsData) : r.owner = o := by
  unfold freshRecords at h
  rw [List.mem_map] at h
  obtain ⟨tr, _, rfl⟩ := h
  rfl

/-- C1 (amended): starting from any store satisfying the data-model
consistency invariant, and for any indexing request whose field names are
distinct and whose generated terms are duplicate-free per field, reindexing a
record twice in immediate succession yields the same live IndexRecords and
the same GlobalOccuranceCount values as reindexing it once. -/
theorem reindex_idempotent (canon : String → List String) (s : SState) (o : Nat)
    (fieldsData : List (String × List String))
    (hc : Consistent s) (hnd : NodupTerms canon fieldsData) :
    SEq (reindex canon o fieldsData (reindex canon o fieldsData s))
        (reindex canon o fieldsData s) := by
  obtain ⟨hcu, hru⟩ := unindex_spec s o hc
  have hno : ∀ r ∈ (unindex s o).records, ¬ r.owner = o := by
    rw [hru]
    intro r hr
    have := (List.mem_filter.mp hr).2
    simpa using this
  obtain ⟨hcd, hrd⟩ := doIndex_spec canon o fieldsData _ hcu hno hnd
  obtain ⟨hcu2, hru2⟩ := unindex_spec (reindex canon o fieldsData s) o hcd
  have hrecords2 : (unindex (reindex canon o fieldsData s) o).records
      = (unindex s o).records := by
    rw [hru2]
    show (doIndex canon o fieldsData (unindex s o)).records.filter _ = _
    rw [hrd, List.filter_append]
    rw [List.filter_eq_self.mpr (fun r hr => by simpa using hno r hr)]
    rw [List.filter_eq_nil_iff.mpr (fun r hr => by
      simp [freshRecords_owner canon o fieldsData r hr])]
    rw [List.append_nil]
  have hno2 : ∀ r ∈ (unindex (reindex canon o fieldsData s) o).records, ¬ r.owner = o := by
    rw [hrecords2]
    exact hno
  obtain ⟨hcd2, hrd2⟩ := doIndex_spec canon o fieldsData _ hcu2 hno2 hnd
  have hrec : (reindex canon o fieldsData (reindex canon o fieldsData s)).records
      = (reindex canon o fieldsData s).records := by
    show (doIndex canon o fieldsData (unindex (reindex canon o fieldsData s) o)).records
      = (doIndex canon o fieldsData (unindex s o)).records
    rw [hrd2, hrd, hrecords2]
  refine ⟨hrec, ?_⟩
  intro t
  have h1 := hcd2.2 t
  have h2 := hcd.2 t
  show (doIndex canon o fieldsData (unindex (reindex canon o fieldsData s) o)).counts t
    = (doIndex canon o fieldsData (unindex s o)).counts t
  rw [h1, h2]
  have : (doIndex canon o fieldsData (unindex (reindex canon o fieldsData s) o)).records
      = (doIndex canon o fieldsData (unindex s o)).records := hrec
  rw [this]

/-- C1 counterexample: with the spec's default whitespace canonicalizer, the
text "b b" generates the term "b" twice; each duplicate re-increments the
counter while `get_or_create` keeps a single record, so the second reindex
leaves GlobalOccuranceCount("b") at 6 where the first left 4: reindexing
twice does not equal reindexing once. -/
theorem reindex_not_idempotent :
    ¬ SEq (reindex splitWords 0 [("f", ["b b"])]
            (reindex splitWords 0 [("f", ["b b"])] emptyState))
          (reindex splitWords 0 [("f", ["b b"])] emptyState) := by
  intro h
  have hb := h.2 "b"
  have h6 : (reindex splitWords 0 [("f", ["b b"])]
      (reindex splitWords 0 [("f", ["b b"])] emptyState)).counts "b" = some 6 := by decide
  have h4 : (reindex splitWords 0 [("f", ["b b"])] emptyState).counts "b" = some 4 := by
    decide
  rw [h6, h4] at hb
  simp at hb

theorem reindex_idempotent_witness :
    (Consistent emptyState ∧ NodupTerms splitWords [("f", ["b c"])]) ∧
    SEq (reindex splitWords 0 [("f", ["b c"])]
          (reindex splitWords 0 [("f", ["b c"])] emptyState))
        (reindex splitWords 0 [("f", ["b c"])] emptyState) := by
  have hc : Consistent emptyState := by
    constructor
    · intro r hr
      simp [emptyState] at hr
    · intro t
      rfl
  have hnd : NodupTerms splitWords [("f", ["b c"])] := by
    constructor
    · decide
    · intro fd hfd
      simp only [List.mem_singleton] at hfd
      subst hfd
      decide
  exact ⟨⟨hc, hnd⟩, reindex_idempotent splitWords emptyState 0 _ hc hnd⟩

theorem reindex_spec (canon : String → List String) (o : Nat)
    (fieldsData : List (String × List String)) (s : SState)
    (hc : Consistent s) (hnd : NodupTerms canon fieldsData) :
    Consistent (reindex canon o fieldsData s) ∧
    ∀ r ∈ (reindex canon o fieldsData s).records, r.owner = o ∨ r ∈ s.records := by
  obtain ⟨hcu, hru⟩ := unindex_spec s o hc
  have hno : ∀ r ∈ (unindex s o).records, ¬ r.owner = o := by
    rw [hru]
    intro r hr
    have := (List.mem_filter.mp hr).2
    simpa using this
  obtain ⟨hcd, hrd⟩ := doIndex_spec canon o fieldsData _ hcu hno hnd
  refine ⟨hcd, ?_⟩
  intro r hr
  have hr' : r ∈ (doIndex canon o fieldsData (unindex s o)).records := hr
  rw [hrd] at hr'
  rcases List.mem_append.mp hr' with h | h
  · right
    rw [hru] at h
    exact (List.mem_filter.mp h).1
  · left
    exact freshRecords_owner canon o fieldsData r h

theorem foldReindex_spec (canon : String → List String) (P : Nat → Prop) :
    ∀ (ds : List (Nat × List (String × List String))) (s : SState),
    Consistent s → (∀ od ∈ ds, NodupTerms canon od.2) →
    (∀ r ∈ s.records, P r.owner) → (∀ od ∈ ds, P od.1) →
    Consistent (ds.foldl (fun s od => reindex canon od.1 od.2 s) s) ∧
    ∀ r ∈ (ds.foldl (fun s od => reindex canon od.1 od.2 s) s).records, P r.owner := by
  intro ds
  induction ds with
  | nil => intro s hc _ hrec _; exact ⟨hc, hrec⟩
  | cons od ds ih =>
    intro s hc hnd hrec hP
    rw [List.foldl_cons]
    obtain ⟨hc', hown⟩ := reindex_spec canon od.1 od.2 s hc (hnd od (List.mem_cons_self _ _))
    apply ih _ hc' (fun od' h => hnd od' (List.mem_cons_of_mem _ h))
    · intro r hr
      rcases hown r hr with h | h
      · rw [h]
        exact hP od (List.mem_cons_self _ _)
      · exact hrec r h
    · exact fun od' h => hP od' (List.mem_cons_of_mem _ h)

theorem foldUnindex_spec : ∀ (os : List Nat) (s : SState), Consistent s →
    Consistent (os.foldl unindex s) ∧
    (os.foldl unindex s).records = s.records.filter (fun r => !(os.contains r.owner)) := by
  intro os
  induction os with
  | nil =>
    intro s hc
    refine ⟨hc, ?_⟩
    show s.records = _
    exact (List.filter_eq_self.mpr (fun a _ => by simp)).symm
  | cons o os ih =>
    intro s hc
    rw [List.foldl_cons]
    obtain ⟨hc', hru⟩ := unindex_spec s o hc
    obtain ⟨hc'', hru'⟩ := ih (unindex s o) hc'
    refine ⟨hc'', ?_⟩
    rw [hru', hru, List.filter_filter]
    apply List.filter_congr
    intro r _
    simp only [List.contains_cons, Bool.not_or, Bool.and_comm]

/-- C2 (amended): indexing any set of records from an empty store and then
fully unindexing all of them leaves every GlobalOccuranceCount row absent
(hence zero-or-absent and never negative), consistent with the then-empty set
of live IndexRecords — provided every indexing request has distinct field
names and duplicate-free generated terms per field; the store after the
indexing phase is likewise consistent (no count negative or out of sync at
any stage). -/
theorem index_unindex_conserves (canon : String → List String)
    (data : List (Nat × List (String × List String)))
    (hnd : ∀ od ∈ data, NodupTerms canon od.2) :
    Consistent (data.foldl (fun s od => reindex canon od.1 od.2 s) emptyState) ∧
    Consistent ((data.map Prod.fst).foldl unindex
      (data.foldl (fun s od => reindex canon od.1 od.2 s) emptyState)) ∧
    ((data.map Prod.fst).foldl unindex
      (data.foldl (fun s od => reindex canon od.1 od.2 s) emptyState)).records = [] ∧
    ∀ t, ((data.map Prod.fst).foldl unindex
      (data.foldl (fun s od => reindex canon od.1 od.2 s) emptyState)).counts t = none := by
  have hce : Consistent emptyState := by
    constructor
    · intro r hr
      simp [emptyState] at hr
    · intro t
      rfl
  obtain ⟨hci, howner⟩ := foldReindex_spec canon (fun o => o ∈ data.map Prod.fst) data
    emptyState hce hnd (by intro r hr; simp [emptyState] at hr)
    (fun od h => List.mem_map_of_mem Prod.fst h)
  obtain ⟨hcf, hrf⟩ := foldUnindex_spec (data.map Prod.fst) _ hci
  have hempty : ((data.map Prod.fst).foldl unindex
      (data.foldl (fun s od => reindex canon od.1 od.2 s) emptyState)).records = [] := by
    rw [hrf, List.filter_eq_nil_iff]
    intro r hr
    have := howner r hr
    simp [this]
  refine ⟨hci, hcf, hempty, ?_⟩
  intro t
  rw [hcf.2 t, hempty, sumOcc_nil]
  simp

/-- C2 counterexample: indexing one record whose text "b b" generates the
term "b" twice and then fully unindexing it leaves no live IndexRecords but a
GlobalOccuranceCount row for "b" reading 2 — neither zero nor absent, and
inconsistent with the (empty) set of live records. -/
theorem counter_not_conserved :
    (unindex (reindex splitWords 0 [("f", ["b b"])] emptyState) 0).records = [] ∧
    ¬((unindex (reindex splitWords 0 [("f", ["b b"])] emptyState) 0).counts "b" = none ∨
      (unindex (reindex splitWords 0 [("f", ["b b"])] emptyState) 0).counts "b"
        = some 0) := by
  constructor
  · decide
  · decide

theorem index_unindex_conserves_witness :
    (∀ od ∈ [((0 : Nat), [("f", ["b c"])])], NodupTerms splitWords od.2) ∧
    ∀ t, (([((0 : Nat), [("f", ["b c"])])].map Prod.fst).foldl unindex
      ([((0 : Nat), [("f", ["b c"])])].foldl
        (fun s od => reindex splitWords od.1 od.2 s) emptyState)).counts t = none := by
  have hnd : ∀ od ∈ [((0 : Nat), [("f", ["b c"])])], NodupTerms splitWords od.2 := by
    intro od hod
    simp only [List.mem_singleton] at hod
    subst hod
    constructor
    · decide
    · intro fd hfd
      simp only [List.mem_singleton] at hfd
      subst hfd
      decide
  exact ⟨hnd, (index_unindex_conserves splitWords _ hnd).2.2.2⟩

theorem apply_paging_spec_witness :
    apply_paging_to_results (List.range 25) 10 2 10
      = [10, 11, 12, 13, 14, 15, 16, 17, 18, 19] :=
  (apply_paging_spec (List.range 25) 10 2 10 (by decide) (by decide) (by decide)).2.2.1

theorem unindex_missing_counter_witness :
    missingCounterState.counts "a" = none ∧
    recordDelete missingCounterState ⟨0, "f", "a", 1⟩ = missingCounterState :=
  ⟨by decide, unindex_missing_counter.1 missingCounterState ⟨0, "f", "a", 1⟩ (by decide)⟩

theorem resolveResults_spec_witness :
    resolveResults id [10, 30] [(10, 0), (20, 1), (30, 2)] = none :=
  (resolveResults_spec id [10, 30] [(10, 0), (20, 1), (30, 2)]).1
    ⟨30, by decide, 2, by decide, by decide⟩

theorem get_field_content_strips_all_witness :
    get_field_content ⟨['a'] ++ ':' :: (['x'] ++ (['a'] ++ ':' :: ['y']))⟩ (some ⟨['a']⟩)
      = (some ⟨['a']⟩, ⟨['x'] ++ ['y']⟩) :=
  (get_field_content_strips_all ['a'] ['x'] ['y'] (by decide) (by decide) (by decide)
    (by decide) (by decide) (by decide)).1

end SimpleSearch
